import Mathlib

set_option maxHeartbeats 1000000

/-!
Shallow embedding of the crossword CSP solver of
`src/Week 3/crossword/generate.py` (class `CrosswordCreator`), together
with the Puzzle Model interface it consumes.  Python strings are modelled
as lists of characters, the mutable `self.domains` dictionary as a
function from variables to word lists threaded explicitly through each
operation, Python sets iterated in a fixed order as lists, and the
unbounded recursion / worklist loops with an explicit fuel parameter that
is proved sufficient below.
-/

/-- A candidate word: a Python string restricted to the operations the
solver uses (length, character indexing, equality). -/
abbrev Word := List Char

/-- A word slot of the crossword, identified by starting cell, direction
and length; equality is componentwise, as for the Python `Variable`. -/
structure Variable where
  row : Nat
  col : Nat
  down : Bool
  length : Nat
deriving DecidableEq

/-- The per-variable Domain Store (`self.domains`). -/
abbrev Domains := Variable → List Word

/-- An assignment under construction: a Python dict from variables to
words, as an association list with insertion order. -/
abbrev Assignment := List (Variable × Word)

/-- An ordered pair entry of the AC-3 worklist. -/
abbrev Arc := Variable × Variable

/-- Modelled from the spec: the Puzzle Model (`crossword.py`, which is not
under `src/`) exposes the slot-variable set, the candidate word pool and
the precomputed overlap map (spec section 6).  `variables` carries the
iteration order of the Python set; `overlaps` is the overlap map as an
association list over ordered pairs of variables. -/
structure Model where
  vars : List Variable  -- `variables` is a reserved word in Lean
  words : List Word
  overlaps : List (Arc × (Nat × Nat))

/-- Association-list lookup, the dict access used throughout. -/
def alookup {α β : Type} [DecidableEq α] : List (α × β) → α → Option β
  | [], _ => none
  | (k, v) :: t, a => if k = a then some v else alookup t a

/-- `self.crossword.overlaps[x, y]`. -/
def Model.overlap (c : Model) (x y : Variable) : Option (Nat × Nat) :=
  alookup c.overlaps (x, y)

/-- Modelled from the spec: `neighbors(v)` returns the variables sharing a
grid cell with `v`, i.e. the distinct variables with a defined overlap. -/
def Model.neighbors (c : Model) (v : Variable) : List Variable :=
  c.vars.filter (fun w => decide (w ≠ v) && (c.overlap v w).isSome)

/-- Well-formedness of a Puzzle Model, guaranteed by the excluded
construction step (spec section 7): the variable set has no duplicates,
the overlap map has one entry per ordered pair, and it is symmetric
(`overlaps[x,y] = (i,j)` exactly when `overlaps[y,x] = (j,i)`). -/
def WellFormed (c : Model) : Prop :=
  c.vars.Nodup ∧ (c.overlaps.map Prod.fst).Nodup ∧
    ∀ e ∈ c.overlaps, ((e.1.2, e.1.1), (e.2.2, e.2.1)) ∈ c.overlaps

/-- `self.domains` as built in `__init__`: every variable is seeded with
the full word pool. -/
def initDomains (c : Model) : Domains := fun _ => c.words

/-- `enforce_node_consistency` (generate.py lines 98-108): drop from each
domain the words whose length differs from the variable's length. -/
def enforce_node_consistency (dom : Domains) : Domains :=
  fun v => (dom v).filter (fun w => w.length == v.length)

/-- The support test inside `revise`:
`any(word_x[i] == word_y[j] for word_y in self.domains[y])`. -/
def hasSupport (domY : List Word) (i j : Nat) (wx : Word) : Bool :=
  domY.any (fun wy => wx.getD i 'A' == wy.getD j 'A')

/-- `revise` (generate.py lines 110-132): with no overlap return `False`
and leave the store alone; otherwise remove from `x`'s domain every word
without support in `y`'s domain, reporting whether anything was removed. -/
def revise (c : Model) (x y : Variable) (dom : Domains) : Bool × Domains :=
  match c.overlap x y with
  | none => (false, dom)
  | some (i, j) =>
    if (dom x).any (fun wx => !hasSupport (dom y) i j wx) then
      (true, fun v =>
        if v = x then (dom x).filter (fun wx => hasSupport (dom y) i j wx)
        else dom v)
    else (false, dom)

/-- The initial full worklist of `ac3` when `arcs is None` (generate.py
lines 148-152): every ordered pair (variable, neighbor) with a defined
overlap. -/
def initArcs (c : Model) : List Arc :=
  (c.vars.map (fun v =>
    ((c.neighbors v).filter (fun nb => (c.overlap v nb).isSome)).map
      (fun nb => (v, nb)))).flatten

/-- The re-enqueued pairs after a successful revision (generate.py lines
160-161): `(Z, X)` for each `Z` in `neighbors(X) - {Y}`. -/
def enqueueArcs (c : Model) (X Y : Variable) : List Arc :=
  ((c.neighbors X).filter (fun Z => decide (Z ≠ Y))).map (fun Z => (Z, X))

/-- The `ac3` worklist loop (generate.py lines 154-163), with a fuel
parameter bounding the number of iterations; `none` means the fuel ran
out, which `ac3Loop_total` below proves never happens for the fuel
`ac3` passes in. -/
def ac3Loop (c : Model) : Nat → Domains → List Arc → Option (Bool × Domains)
  | 0, _, _ => none
  | _ + 1, dom, [] => some (true, dom)
  | n + 1, dom, (X, Y) :: rest =>
    match revise c X Y dom with
    | (true, dom') =>
      if dom' X = [] then some (false, dom')
      else ac3Loop c n dom' (rest ++ enqueueArcs c X Y)
    | (false, _) => ac3Loop c n dom rest

/-- Total number of candidate words left across all domains. -/
def totalSize (c : Model) (dom : Domains) : Nat :=
  (c.vars.map (fun v => (dom v).length)).sum

/-- Fuel bound for the worklist loop: every productive dequeue removes at
least one word and enqueues at most `|variables|` pairs, so this measure
strictly decreases at every iteration. -/
def ac3Measure (c : Model) (dom : Domains) (q : List Arc) : Nat :=
  totalSize c dom * (c.vars.length + 1) + q.length + 1

/-- `ac3` with the full worklist, the only way the repository calls it
(generate.py lines 134-163): returns the Python result (`True`/`False`)
together with the final Domain Store.  The `getD` default is dead code:
`ac3Loop_total` below shows the fuel suffices. -/
def ac3 (c : Model) (dom : Domains) : Bool × Domains :=
  (ac3Loop c (ac3Measure c dom (initArcs c)) dom (initArcs c)).getD (true, dom)

/-- `assignment_complete` (generate.py lines 165-172). -/
def assignment_complete (c : Model) (asg : Assignment) : Bool :=
  c.vars.all (fun v => (alookup asg v).isSome)

/-- First check of `consistent` (line 183):
`len(set(assignment.values())) == len(assignment)`. -/
def valuesDistinct (asg : Assignment) : Bool :=
  (asg.map (fun p => p.2)).dedup.length == asg.length

/-- Second check of `consistent` (lines 187-189): each assigned word has
its variable's length. -/
def lengthsMatch (asg : Assignment) : Bool :=
  asg.all (fun p => p.2.length == p.1.length)

/-- Third check of `consistent` (lines 192-199): every pair of assigned
neighboring variables with a defined overlap agrees at the overlap. -/
def noConflicts (c : Model) (asg : Assignment) : Bool :=
  asg.all (fun p =>
    (c.neighbors p.1).all (fun nb =>
      match alookup asg nb with
      | none => true
      | some wnb =>
        match c.overlap p.1 nb with
        | none => true
        | some (i, j) => p.2.getD i 'A' == wnb.getD j 'A'))

/-- `consistent` (generate.py lines 174-201): the early-return chain of
the three checks. -/
def consistent (c : Model) (asg : Assignment) : Bool :=
  valuesDistinct asg && lengthsMatch asg && noConflicts c asg

/-- The `eliminations` counter of `order_domain_values` (lines 215-226):
over the unassigned neighbors with a defined overlap, count the neighbor
words that disagree with `w` at the overlap. -/
def eliminationCount (c : Model) (dom : Domains) (asg : Assignment)
    (var : Variable) (w : Word) : Nat :=
  (((c.neighbors var).filter (fun nb => (alookup asg nb).isNone)).map
    (fun nb =>
      match c.overlap var nb with
      | none => 0
      | some (i, j) =>
        ((dom nb).filter (fun wnb => !(w.getD i 'A' == wnb.getD j 'A'))).length)).sum

/-- Stable insertion used by `sortByKey`. -/
def insertByKey {α : Type} (key : α → Nat) (a : α) : List α → List α
  | [] => [a]
  | b :: t => if key b < key a then b :: insertByKey key a t else a :: b :: t

/-- Stable sort by a natural-number key, the behaviour of Python's
`sorted(xs, key=...)`. -/
def sortByKey {α : Type} (key : α → Nat) : List α → List α
  | [] => []
  | a :: t => insertByKey key a (sortByKey key t)

/-- `order_domain_values` (generate.py lines 203-229): sort the domain of
`var` by elimination count, least constraining first. -/
def order_domain_values (c : Model) (dom : Domains) (asg : Assignment)
    (var : Variable) : List Word :=
  sortByKey (fun w => eliminationCount c dom asg var w) (dom var)

/-- A dynamically typed Python value: `highest_degree` in
`select_unassigned_variable` holds a set of variables initially and a
`Variable` after the (dead) reassignment `highest_degree = other`. -/
inductive PyVal where
  | vset : List Variable → PyVal
  | vvar : Variable → PyVal

/-- Python's proper-superset test `set(a) > set(b)` for lists viewed as
sets. -/
def properSup (a b : List Variable) : Bool :=
  b.all (fun x => decide (x ∈ a)) && a.any (fun x => !decide (x ∈ b))

/-- `degree > highest_degree` with dynamic typing: comparing a set against
a `Variable` is a Python `TypeError`, modelled as `none`. -/
def pyGTset (a : List Variable) : PyVal → Option Bool
  | PyVal.vset b => some (properSup a b)
  | PyVal.vvar _ => none

/-- The tie-break loop of `select_unassigned_variable` (generate.py lines
251-255), exactly as written: `degree` is recomputed from `mnrm[0]` (the
`deg` parameter) on every iteration, and on a switch `highest_degree` is
assigned the `Variable` `other`. -/
def suvLoop (deg : List Variable) : List Variable → Variable → PyVal → Option Variable
  | [], result, _ => some result
  | other :: rest, result, hd =>
    match pyGTset deg hd with
    | none => none
    | some b =>
      if b then suvLoop deg rest other (PyVal.vvar other)
      else suvLoop deg rest result hd

/-- `select_unassigned_variable` (generate.py lines 231-257): sort the
unassigned variables by domain size, keep the minimum-size prefix
(`mnrm`), return its head unless the dead tie-break loop runs.  `none`
models the `IndexError` on `mnrm[0]` when no variable is unassigned and
the `TypeError` in the dead branch. -/
def select_unassigned_variable (c : Model) (dom : Domains) (asg : Assignment) :
    Option Variable :=
  let unassigned := c.vars.filter (fun v => (alookup asg v).isNone)
  match sortByKey (fun v => (dom v).length) unassigned with
  | [] => none
  | m0 :: ms =>
    match (m0 :: ms).filter (fun v => (dom v).length == (dom m0).length) with
    | [] => none
    | r0 :: rest =>
      if rest.isEmpty then some r0
      else suvLoop (c.neighbors r0) rest r0 (PyVal.vset (c.neighbors r0))

/-- `assignment_copy[var] = value` on a Python dict: replace if the key is
present, otherwise append. -/
def dictSet (asg : Assignment) (v : Variable) (w : Word) : Assignment :=
  if (alookup asg v).isSome then asg.map (fun p => if p.1 = v then (v, w) else p)
  else asg ++ [(v, w)]

/-- The `for value in self.order_domain_values(...)` loop of `backtrack`
(generate.py lines 272-278), with the Domain Store threaded through each
branch exactly as the shared mutable `self.domains` is. -/
def btLoop (recur : Domains → Assignment → Option Assignment × Domains)
    (c : Model) (asg : Assignment) (var : Variable) :
    Domains → List Word → Option Assignment × Domains
  | dom, [] => (none, dom)
  | dom, w :: ws =>
    let asg' := dictSet asg var w
    if consistent c asg' then
      match recur dom asg' with
      | (some r, dom') => (some r, dom')
      | (none, dom') => btLoop recur c asg var dom' ws
    else btLoop recur c asg var dom ws

/-- `backtrack` (generate.py lines 259-279) with the Domain Store threaded
through and a fuel parameter for the recursion depth; `solve` passes
`|variables| + 1`, which is never exhausted since each level assigns one
more variable. -/
def backtrackS (c : Model) : Nat → Domains → Assignment → Option Assignment × Domains
  | 0, dom, _ => (none, dom)
  | n + 1, dom, asg =>
    if assignment_complete c asg then (some asg, dom)
    else
      match select_unassigned_variable c dom asg with
      | none => (none, dom)
      | some var =>
        btLoop (backtrackS c n) c asg var dom (order_domain_values c dom asg var)

/-- The return value of `backtrack`. -/
def backtrack (c : Model) (fuel : Nat) (dom : Domains) (asg : Assignment) :
    Option Assignment :=
  (backtrackS c fuel dom asg).1

/-- `solve` (generate.py lines 90-96): node consistency, then `ac3` whose
boolean result is discarded, then backtracking search from the empty
assignment. -/
def solve (c : Model) : Option Assignment :=
  let d1 := enforce_node_consistency (initDomains c)
  let p := ac3 c d1
  backtrack c (c.vars.length + 1) p.2 []

/-- Instrumentation of the `for value in ...` loop counting recursive
`backtrack` invocations, mirroring `btLoop`'s control flow. -/
def btLoopCount (recur : Domains → Assignment → Option Assignment × Domains)
    (recurCount : Domains → Assignment → Nat)
    (c : Model) (asg : Assignment) (var : Variable) :
    Domains → List Word → Nat
  | _, [] => 0
  | dom, w :: ws =>
    let asg' := dictSet asg var w
    if consistent c asg' then
      match recur dom asg' with
      | (some _, _) => recurCount dom asg'
      | (none, dom') => recurCount dom asg' + btLoopCount recur recurCount c asg var dom' ws
    else btLoopCount recur recurCount c asg var dom ws

/-- Instrumentation of `backtrack` counting how many times it is invoked
(the entry itself plus all recursive calls). -/
def backtrackCount (c : Model) : Nat → Domains → Assignment → Nat
  | 0, _, _ => 0
  | n + 1, dom, asg =>
    1 + (if assignment_complete c asg then 0
      else
        match select_unassigned_variable c dom asg with
        | none => 0
        | some var =>
          btLoopCount (backtrackS c n) (backtrackCount c n) c asg var dom
            (order_domain_values c dom asg var))

/-- How many times `solve` invokes `backtrack` (spec section 4.6 claims
zero when AC-3 fails). -/
def solveBacktrackCalls (c : Model) : Nat :=
  let d1 := enforce_node_consistency (initDomains c)
  let p := ac3 c d1
  backtrackCount c (c.vars.length + 1) p.2 []

/-- A total solution of the Puzzle Model: a choice of a pool word for each
variable satisfying the three global constraints (length, pairwise
distinctness, overlap agreement). -/
def SolutionP (c : Model) (f : Variable → Word) : Prop :=
  (∀ v ∈ c.vars, f v ∈ c.words) ∧
  (∀ v ∈ c.vars, (f v).length = v.length) ∧
  (∀ x ∈ c.vars, ∀ y ∈ c.vars, x ≠ y → f x ≠ f y) ∧
  (∀ x ∈ c.vars, ∀ y ∈ c.vars, x ≠ y → ∀ i j,
    c.overlap x y = some (i, j) → (f x).getD i 'A' = (f y).getD j 'A')

/-- Arc consistency of a Domain Store: every value of every variable has a
support in each overlapping neighbor's domain. -/
def ArcConsistentB (c : Model) (dom : Domains) : Bool :=
  c.vars.all (fun x => c.vars.all (fun y =>
    if x = y then true
    else
      match c.overlap x y with
      | none => true
      | some (i, j) => (dom x).all (fun wx => hasSupport (dom y) i j wx)))

/-- The length invariant of spec section 8: every word in each variable's
domain has that variable's length. -/
def LenInvB (c : Model) (dom : Domains) : Bool :=
  c.vars.all (fun v => (dom v).all (fun w => w.length == v.length))

/-- Every worklist entry is an ordered pair of distinct variables of the
model, as all entries produced by `initArcs` and `enqueueArcs` are. -/
def QOK (c : Model) (q : List Arc) : Prop :=
  ∀ p ∈ q, p.1 ∈ c.vars ∧ p.2 ∈ c.vars ∧ p.1 ≠ p.2

/-- `x` is arc-consistent with `y`: every word left in `x`'s domain has a
support in `y`'s domain at their overlap. -/
def PairSupported (c : Model) (dom : Domains) (x y : Variable) : Prop :=
  ∀ i j, c.overlap x y = some (i, j) → ∀ wx ∈ dom x, hasSupport (dom y) i j wx = true

/-- Arc consistency of the whole Domain Store (the Prop counterpart of
`ArcConsistentB`). -/
def ArcConsistentP (c : Model) (dom : Domains) : Prop :=
  ∀ x ∈ c.vars, ∀ y ∈ c.vars, x ≠ y → PairSupported c dom x y

/-- The AC-3 worklist invariant: every overlapping ordered pair of
distinct variables is either already supported or still queued. -/
def AC3Inv (c : Model) (dom : Domains) (q : List Arc) : Prop :=
  ∀ x ∈ c.vars, ∀ y ∈ c.vars, x ≠ y → (c.overlap x y).isSome = true →
    ((x, y) ∈ q ∨ PairSupported c dom x y)

/-- The assignment is a fragment of the total solution `f`: keys are
distinct model variables and every value is the solution's value. -/
def AsgOK (c : Model) (f : Variable → Word) (asg : Assignment) : Prop :=
  (asg.map Prod.fst).Nodup ∧ ∀ p ∈ asg, p.1 ∈ c.vars ∧ p.2 = f p.1

/-- Number of variables not yet assigned. -/
def unassignedCount (c : Model) (asg : Assignment) : Nat :=
  (c.vars.filter (fun v => (alookup asg v).isNone)).length

/-- All values of the solution `f` survive in the Domain Store. -/
def DomOK (c : Model) (f : Variable → Word) (dom : Domains) : Prop :=
  ∀ v ∈ c.vars, f v ∈ dom v

/-- Across slot of the solvable end-to-end fixture (spec section 8). -/
def vAc : Variable := ⟨0, 0, false, 2⟩

/-- Down slot of the solvable end-to-end fixture. -/
def vDn : Variable := ⟨0, 0, true, 2⟩

/-- Solvable fixture: two length-2 slots crossing at their first letters,
pool {"ab", "ac"}. -/
def mSolve : Model :=
  ⟨[vAc, vDn], [['a', 'b'], ['a', 'c']],
    [((vAc, vDn), (0, 0)), ((vDn, vAc), (0, 0))]⟩

/-- Across slot (length 2) of the propagation-failure fixture. -/
def vA3 : Variable := ⟨0, 0, false, 2⟩

/-- Down slot (length 3) of the propagation-failure fixture. -/
def vB3 : Variable := ⟨0, 0, true, 3⟩

/-- Fixture on which AC-3 fails: the only length-2 and length-3 words
disagree at the shared first letter. -/
def mAc3Fail : Model :=
  ⟨[vA3, vB3], [['a', 'b'], ['c', 'd', 'e']],
    [((vA3, vB3), (0, 0)), ((vB3, vA3), (0, 0))]⟩

/-- The single slot of the unsolvable and empty-domain fixtures. -/
def vU : Variable := ⟨0, 0, false, 1⟩

/-- Unsolvable fixture: a single length-1 slot whose pool has only a
length-2 word. -/
def mNoSol : Model := ⟨[vU], [['a', 'b']], []⟩

/-- Fixture whose Domain Store is empty from the start: one isolated slot,
empty word pool. -/
def mEmptyDom : Model := ⟨[vU], [], []⟩

/-- Isolated slot of the tie-break fixture (degree 0). -/
def wva : Variable := ⟨0, 0, false, 2⟩

/-- First crossing slot of the tie-break fixture (degree 1). -/
def wvb : Variable := ⟨5, 5, false, 2⟩

/-- Second crossing slot of the tie-break fixture (degree 1). -/
def wvc : Variable := ⟨5, 5, true, 2⟩

/-- Tie-break fixture: `wva` is isolated while `wvb` and `wvc` overlap. -/
def mTie : Model :=
  ⟨[wva, wvb, wvc], [], [((wvb, wvc), (0, 0)), ((wvc, wvb), (0, 0))]⟩

/-- Domain Store for the tie-break fixture: `wva` and `wvb` tie at the
minimal size 1, `wvc` has size 2. -/
def domTie : Domains := fun v =>
  if v = wva then [['a', 'b']]
  else if v = wvb then [['c', 'd']]
  else [['e', 'f'], ['g', 'h']]

/-! ### Basic lemmas about the embedded data structures -/

theorem alookup_mem {α β : Type} [DecidableEq α] {l : List (α × β)} {a : α} {b : β}
    (h : alookup l a = some b) : (a, b) ∈ l := by
  induction l with
  | nil => simp [alookup] at h
  | cons p t ih =>
    obtain ⟨k, v⟩ := p
    by_cases hk : k = a
    · subst hk
      simp [alookup] at h
      simp [h]
    · simp [alookup, hk] at h
      exact List.mem_cons_of_mem _ (ih h)

theorem mem_alookup {α β : Type} [DecidableEq α] {l : List (α × β)}
    (hnd : (l.map Prod.fst).Nodup) {a : α} {b : β} (h : (a, b) ∈ l) :
    alookup l a = some b := by
  induction l with
  | nil => simp at h
  | cons p t ih =>
    obtain ⟨k, v⟩ := p
    simp only [List.map_cons, List.nodup_cons] at hnd
    rcases List.mem_cons.mp h with heq | hmem
    · cases heq
      simp [alookup]
    · have hka : k ≠ a := by
        intro hk
        apply hnd.1
        rw [hk]
        exact List.mem_map.mpr ⟨(a, b), hmem, rfl⟩
      simp [alookup, hka]
      exact ih hnd.2 hmem

theorem alookup_nil {α β : Type} [DecidableEq α] (a : α) :
    alookup ([] : List (α × β)) a = none := rfl

theorem alookup_append_single {α β : Type} [DecidableEq α] (l : List (α × β))
    (a v : α) (w : β) (h : alookup l a = none) :
    alookup (l ++ [(v, w)]) a = if v = a then some w else none := by
  induction l with
  | nil => simp [alookup]
  | cons p t ih =>
    obtain ⟨k, u⟩ := p
    by_cases hk : k = a
    · simp [alookup, hk] at h
    · simp only [alookup, hk, if_false, List.cons_append] at h ⊢
      simp [alookup, hk]
      exact ih h

theorem alookup_append_of_some {α β : Type} [DecidableEq α] {l : List (α × β)}
    {a : α} {b : β} (l2 : List (α × β)) (h : alookup l a = some b) :
    alookup (l ++ l2) a = some b := by
  induction l with
  | nil => simp [alookup] at h
  | cons p t ih =>
    obtain ⟨k, u⟩ := p
    by_cases hk : k = a
    · simp [alookup, hk] at h ⊢
      exact h
    · simp [alookup, hk] at h ⊢
      exact ih h

theorem dictSet_fresh {asg : Assignment} {v : Variable} (w : Word)
    (h : alookup asg v = none) : dictSet asg v w = asg ++ [(v, w)] := by
  simp [dictSet, h]

theorem alookup_dictSet_self {asg : Assignment} {v : Variable} (w : Word)
    (h : alookup asg v = none) : alookup (dictSet asg v w) v = some w := by
  rw [dictSet_fresh w h, alookup_append_single _ _ _ _ h]
  simp

theorem alookup_dictSet_other {asg : Assignment} {v u : Variable} (w : Word)
    (h : alookup asg v = none) (huv : v ≠ u) :
    alookup (dictSet asg v w) u = alookup asg u := by
  rw [dictSet_fresh w h]
  cases hu : alookup asg u with
  | some b => exact alookup_append_of_some _ hu
  | none => rw [alookup_append_single _ _ _ _ hu, if_neg huv]

theorem mem_insertByKey {α : Type} (key : α → Nat) (b : α) {a : α} {l : List α} :
    a ∈ insertByKey key b l ↔ a = b ∨ a ∈ l := by
  induction l with
  | nil => simp [insertByKey]
  | cons x t ih =>
    by_cases h : key x < key b
    · simp only [insertByKey, if_pos h, List.mem_cons, ih]
      tauto
    · simp only [insertByKey, if_neg h, List.mem_cons]

theorem mem_sortByKey {α : Type} (key : α → Nat) {a : α} {l : List α} :
    a ∈ sortByKey key l ↔ a ∈ l := by
  induction l with
  | nil => simp [sortByKey]
  | cons x t ih =>
    simp only [sortByKey, mem_insertByKey, List.mem_cons, ih]

theorem sortByKey_nil_iff {α : Type} (key : α → Nat) {l : List α} :
    sortByKey key l = [] ↔ l = [] := by
  cases l with
  | nil => simp [sortByKey]
  | cons x t =>
    simp only [sortByKey]
    constructor
    · intro h
      have : x ∈ insertByKey key x (sortByKey key t) := (mem_insertByKey key x).mpr (Or.inl rfl)
      rw [h] at this
      exact absurd this (List.not_mem_nil x)
    · intro h
      exact absurd h (by simp)

theorem mem_neighbors {c : Model} {v x : Variable} :
    x ∈ c.neighbors v ↔ x ∈ c.vars ∧ x ≠ v ∧ (c.overlap v x).isSome = true := by
  simp [Model.neighbors, List.mem_filter, Bool.and_eq_true, decide_eq_true_eq, and_assoc]

theorem neighbors_sub_vars {c : Model} {v x : Variable} (h : x ∈ c.neighbors v) :
    x ∈ c.vars := (mem_neighbors.mp h).1

theorem overlap_symm {c : Model} (hwf : WellFormed c) {x y : Variable} {i j : Nat}
    (h : c.overlap x y = some (i, j)) : c.overlap y x = some (j, i) := by
  have hmem : ((x, y), (i, j)) ∈ c.overlaps := alookup_mem h
  have hmem' := hwf.2.2 _ hmem
  exact mem_alookup hwf.2.1 hmem'

theorem properSup_self (a : List Variable) : properSup a a = false := by
  simp only [properSup, Bool.and_eq_false_iff]
  right
  rw [List.any_eq_false]
  intro x hx
  simp [hx]

theorem suvLoop_self (deg : List Variable) (l : List Variable) (res : Variable) :
    suvLoop deg l res (PyVal.vset deg) = some res := by
  induction l generalizing res with
  | nil => rfl
  | cons o t ih =>
    simp only [suvLoop, pyGTset, properSup_self, if_false, Bool.false_eq_true]
    exact ih res

/-! ### Semantics of `revise` -/

theorem revise_of_no_overlap {c : Model} {x y : Variable} (dom : Domains)
    (h : c.overlap x y = none) : revise c x y dom = (false, dom) := by
  simp [revise, h]

theorem revise_other {c : Model} {x y : Variable} {dom : Domains} {v : Variable}
    (h : v ≠ x) : (revise c x y dom).2 v = dom v := by
  cases hov : c.overlap x y with
  | none => simp only [revise, hov]
  | some p =>
    obtain ⟨i, j⟩ := p
    simp only [revise, hov]
    by_cases hr : (dom x).any (fun wx => !hasSupport (dom y) i j wx) = true
    · rw [if_pos hr]
      simp only [if_neg h]
    · rw [if_neg hr]

theorem revise_subset {c : Model} {x y : Variable} {dom : Domains} {v : Variable}
    {w : Word} (h : w ∈ (revise c x y dom).2 v) : w ∈ dom v := by
  by_cases hv : v = x
  · subst hv
    cases hov : c.overlap v y with
    | none => simpa only [revise, hov] using h
    | some p =>
      obtain ⟨i, j⟩ := p
      simp only [revise, hov] at h
      by_cases hr : (dom v).any (fun wx => !hasSupport (dom y) i j wx) = true
      · rw [if_pos hr] at h
        simp only [if_pos rfl] at h
        exact (List.mem_filter.mp h).1
      · rwa [if_neg hr] at h
  · rwa [revise_other hv] at h

theorem revise_false_eq {c : Model} {x y : Variable} {dom : Domains}
    (h : (revise c x y dom).1 = false) : (revise c x y dom).2 = dom := by
  cases hov : c.overlap x y with
  | none => simp only [revise, hov]
  | some p =>
    obtain ⟨i, j⟩ := p
    simp only [revise, hov] at h ⊢
    by_cases hr : (dom x).any (fun wx => !hasSupport (dom y) i j wx) = true
    · rw [if_pos hr] at h
      simp at h
    · rw [if_neg hr]

theorem revise_false_supported {c : Model} {x y : Variable} {dom : Domains}
    {i j : Nat} (hov : c.overlap x y = some (i, j))
    (h : (revise c x y dom).1 = false) :
    ∀ w ∈ dom x, hasSupport (dom y) i j w = true := by
  simp only [revise, hov] at h
  by_cases hr : (dom x).any (fun wx => !hasSupport (dom y) i j wx) = true
  · rw [if_pos hr] at h
    simp at h
  · intro w hw
    rw [List.any_eq_true] at hr
    push_neg at hr
    have := hr w hw
    simpa using this

theorem revise_true_eq {c : Model} {x y : Variable} {dom : Domains}
    (h : (revise c x y dom).1 = true) :
    ∃ i j, c.overlap x y = some (i, j) ∧
      (revise c x y dom).2 x = (dom x).filter (fun wx => hasSupport (dom y) i j wx) ∧
      ((dom x).filter (fun wx => hasSupport (dom y) i j wx)).length < (dom x).length := by
  cases hov : c.overlap x y with
  | none =>
    rw [revise_of_no_overlap dom hov] at h
    simp at h
  | some p =>
    obtain ⟨i, j⟩ := p
    simp only [revise, hov] at h ⊢
    by_cases hr : (dom x).any (fun wx => !hasSupport (dom y) i j wx) = true
    · refine ⟨i, j, rfl, by rw [if_pos hr]; simp, ?_⟩
      rw [List.any_eq_true] at hr
      obtain ⟨w, hw, hns⟩ := hr
      refine List.length_filter_lt_length_iff_exists.mpr ⟨w, hw, ?_⟩
      simpa using hns
    · rw [if_neg hr] at h
      simp at h

theorem revise_keeps_supported {c : Model} {x y : Variable} {dom : Domains}
    {i j : Nat} (hov : c.overlap x y = some (i, j)) {w : Word}
    (hw : w ∈ dom x) (hs : hasSupport (dom y) i j w = true) :
    w ∈ (revise c x y dom).2 x := by
  simp only [revise, hov]
  by_cases hr : (dom x).any (fun wx => !hasSupport (dom y) i j wx) = true
  · rw [if_pos hr]
    simp only [if_pos rfl]
    exact List.mem_filter.mpr ⟨hw, hs⟩
  · rw [if_neg hr]
    exact hw

/-! ### The AC-3 worklist: membership, well-formed queues, termination -/

theorem mem_initArcs {c : Model} {x y : Variable} :
    (x, y) ∈ initArcs c ↔
      x ∈ c.vars ∧ y ∈ c.vars ∧ y ≠ x ∧ (c.overlap x y).isSome = true := by
  simp only [initArcs, List.mem_flatten, List.mem_map]
  constructor
  · rintro ⟨inner, ⟨v, hv, rfl⟩, hmem⟩
    obtain ⟨nb, hnb, heq⟩ := List.mem_map.mp hmem
    obtain ⟨h1, h2⟩ := Prod.mk.injEq .. ▸ heq
    subst h1
    subst h2
    have hf := List.mem_filter.mp hnb
    have hn := mem_neighbors.mp hf.1
    exact ⟨hv, hn.1, hn.2.1, hf.2⟩
  · rintro ⟨hx, hy, hxy, hov⟩
    refine ⟨_, ⟨x, hx, rfl⟩, List.mem_map.mpr ⟨y, List.mem_filter.mpr ⟨?_, hov⟩, rfl⟩⟩
    exact mem_neighbors.mpr ⟨hy, hxy, hov⟩

theorem mem_enqueueArcs {c : Model} {X Y : Variable} {p : Arc} :
    p ∈ enqueueArcs c X Y ↔ p.1 ∈ c.neighbors X ∧ p.1 ≠ Y ∧ p.2 = X := by
  simp only [enqueueArcs, List.mem_map, List.mem_filter, decide_eq_true_eq]
  constructor
  · rintro ⟨Z, ⟨hZn, hZY⟩, rfl⟩
    exact ⟨hZn, hZY, rfl⟩
  · rintro ⟨h1, h2, h3⟩
    obtain ⟨a, b⟩ := p
    simp only at h1 h2 h3
    subst h3
    exact ⟨a, ⟨h1, h2⟩, rfl⟩

theorem initArcs_QOK (c : Model) : QOK c (initArcs c) := by
  rintro ⟨x, y⟩ hp
  have h := mem_initArcs.mp hp
  exact ⟨h.1, h.2.1, fun he => h.2.2.1 he.symm⟩

theorem QOK_tail {c : Model} {p : Arc} {rest : List Arc} (h : QOK c (p :: rest)) :
    QOK c rest := fun q hq => h q (List.mem_cons_of_mem _ hq)

theorem QOK_step {c : Model} {X Y : Variable} {rest : List Arc}
    (h : QOK c ((X, Y) :: rest)) : QOK c (rest ++ enqueueArcs c X Y) := by
  intro p hp
  rcases List.mem_append.mp hp with hmem | hmem
  · exact h p (List.mem_cons_of_mem _ hmem)
  · have he := mem_enqueueArcs.mp hmem
    have hn := mem_neighbors.mp he.1
    have hX := (h (X, Y) (List.mem_cons_self _ _)).1
    exact ⟨hn.1, he.2.2 ▸ hX, he.2.2 ▸ hn.2.1⟩

theorem revise_len_le {c : Model} {x y : Variable} {dom : Domains} (v : Variable) :
    (((revise c x y dom).2 v)).length ≤ (dom v).length := by
  by_cases hv : v = x
  · subst hv
    cases hr : (revise c v y dom).1 with
    | false => rw [revise_false_eq hr]
    | true =>
      obtain ⟨i, j, _, heq, _⟩ := revise_true_eq hr
      rw [heq]
      exact List.length_filter_le _ _
  · rw [revise_other hv]

theorem sumlen_le_of_pointwise (l : List Variable) (d1 d2 : Domains)
    (hle : ∀ v, (d2 v).length ≤ (d1 v).length) :
    (l.map (fun v => (d2 v).length)).sum ≤ (l.map (fun v => (d1 v).length)).sum := by
  induction l with
  | nil => simp
  | cons a t ih => simpa using Nat.add_le_add (hle a) ih

theorem sumlen_lt_of_pointwise (l : List Variable) (d1 d2 : Domains) (X : Variable)
    (hX : X ∈ l) (hlt : (d2 X).length < (d1 X).length)
    (hle : ∀ v, (d2 v).length ≤ (d1 v).length) :
    (l.map (fun v => (d2 v).length)).sum < (l.map (fun v => (d1 v).length)).sum := by
  induction l with
  | nil => simp at hX
  | cons a t ih =>
    by_cases ha : a = X
    · subst ha
      simpa using Nat.add_lt_add_of_lt_of_le hlt (sumlen_le_of_pointwise t d1 d2 hle)
    · have hXt : X ∈ t := by
        rcases List.mem_cons.mp hX with h | h
        · exact absurd h.symm ha
        · exact h
      simpa using Nat.add_lt_add_of_le_of_lt (hle a) (ih hXt)

theorem totalSize_revise_lt {c : Model} {x y : Variable} {dom : Domains}
    (hx : x ∈ c.vars) (h : (revise c x y dom).1 = true) :
    totalSize c ((revise c x y dom).2) < totalSize c dom := by
  obtain ⟨i, j, _, heq, hlt⟩ := revise_true_eq h
  refine sumlen_lt_of_pointwise c.vars dom _ x hx ?_ (fun v => revise_len_le v)
  rw [heq]
  exact hlt

theorem enqueueArcs_length_le (c : Model) (X Y : Variable) :
    (enqueueArcs c X Y).length ≤ c.vars.length := by
  simp only [enqueueArcs, List.length_map]
  exact le_trans (List.length_filter_le _ _) (List.length_filter_le _ _)

theorem ac3Loop_total (c : Model) :
    ∀ (n : Nat) (dom : Domains) (q : List Arc), QOK c q →
      ac3Measure c dom q ≤ n → (ac3Loop c n dom q).isSome = true := by
  intro n
  induction n with
  | zero =>
    intro dom q _ hm
    unfold ac3Measure at hm
    omega
  | succ n ih =>
    intro dom q hq hm
    cases q with
    | nil => simp [ac3Loop]
    | cons p rest =>
      obtain ⟨X, Y⟩ := p
      simp only [ac3Loop]
      cases hrev : revise c X Y dom with
      | mk r dom' =>
        cases r with
        | true =>
          dsimp only
          by_cases he : dom' X = []
          · rw [if_pos he]
            simp
          · rw [if_neg he]
            apply ih dom' (rest ++ enqueueArcs c X Y) (QOK_step hq)
            have h1 : totalSize c dom' + 1 ≤ totalSize c dom := by
              have hlt := @totalSize_revise_lt c X Y dom
                (hq (X, Y) (List.mem_cons_self _ _)).1 (by rw [hrev])
              rw [hrev] at hlt
              dsimp only at hlt
              omega
            have h2 : (totalSize c dom' + 1) * (c.vars.length + 1) ≤
                totalSize c dom * (c.vars.length + 1) :=
              Nat.mul_le_mul_right _ h1
            rw [Nat.succ_mul] at h2
            have h3 : (enqueueArcs c X Y).length ≤ c.vars.length :=
              enqueueArcs_length_le c X Y
            unfold ac3Measure at hm ⊢
            rw [List.length_append]
            simp only [List.length_cons] at hm
            omega
        | false =>
          dsimp only
          apply ih dom rest (QOK_tail hq)
          unfold ac3Measure at hm ⊢
          simp only [List.length_cons] at hm
          omega

theorem ac3_eq_loop (c : Model) (dom : Domains) :
    ac3Loop c (ac3Measure c dom (initArcs c)) dom (initArcs c) = some (ac3 c dom) := by
  have h := ac3Loop_total c (ac3Measure c dom (initArcs c)) dom (initArcs c)
    (initArcs_QOK c) le_rfl
  cases heq : ac3Loop c (ac3Measure c dom (initArcs c)) dom (initArcs c) with
  | none => rw [heq] at h; simp at h
  | some r => simp [ac3, heq]

/-! ### Preservation and emptiness along the AC-3 loop -/

theorem ac3Loop_preserves (c : Model) {P : Domains → Prop}
    (hstep : ∀ x y dom, x ∈ c.vars → y ∈ c.vars → x ≠ y → P dom →
      P ((revise c x y dom).2)) :
    ∀ (n : Nat) (dom : Domains) (q : List Arc) (b : Bool) (d2 : Domains),
      QOK c q → P dom → ac3Loop c n dom q = some (b, d2) → P d2 := by
  intro n
  induction n with
  | zero =>
    intro dom q b d2 _ _ h
    simp [ac3Loop] at h
  | succ n ih =>
    intro dom q b d2 hq hP h
    cases q with
    | nil =>
      simp only [ac3Loop, Option.some.injEq, Prod.mk.injEq] at h
      exact h.2 ▸ hP
    | cons p rest =>
      obtain ⟨X, Y⟩ := p
      simp only [ac3Loop] at h
      have hgood := hq (X, Y) (List.mem_cons_self _ _)
      cases hrev : revise c X Y dom with
      | mk r dom' =>
        rw [hrev] at h
        have hP' : P dom' := by
          have hs := hstep X Y dom hgood.1 hgood.2.1 hgood.2.2 hP
          rw [hrev] at hs
          exact hs
        cases r with
        | true =>
          dsimp only at h
          by_cases he : dom' X = []
          · rw [if_pos he] at h
            simp only [Option.some.injEq, Prod.mk.injEq] at h
            exact h.2 ▸ hP'
          · rw [if_neg he] at h
            exact ih dom' _ b d2 (QOK_step hq) hP' h
        | false =>
          dsimp only at h
          exact ih dom rest b d2 (QOK_tail hq) hP h

theorem ac3Loop_false_empty (c : Model) :
    ∀ (n : Nat) (dom : Domains) (q : List Arc) (d2 : Domains), QOK c q →
      ac3Loop c n dom q = some (false, d2) → ∃ v ∈ c.vars, d2 v = [] := by
  intro n
  induction n with
  | zero =>
    intro dom q d2 _ h
    simp [ac3Loop] at h
  | succ n ih =>
    intro dom q d2 hq h
    cases q with
    | nil => simp [ac3Loop] at h
    | cons p rest =>
      obtain ⟨X, Y⟩ := p
      simp only [ac3Loop] at h
      have hgood := hq (X, Y) (List.mem_cons_self _ _)
      cases hrev : revise c X Y dom with
      | mk r dom' =>
        rw [hrev] at h
        cases r with
        | true =>
          dsimp only at h
          by_cases he : dom' X = []
          · rw [if_pos he] at h
            simp only [Option.some.injEq, Prod.mk.injEq] at h
            exact ⟨X, hgood.1, h.2 ▸ he⟩
          · rw [if_neg he] at h
            exact ih dom' _ d2 (QOK_step hq) h
        | false =>
          dsimp only at h
          exact ih dom rest d2 (QOK_tail hq) h

theorem ac3Loop_true_nonempty (c : Model) :
    ∀ (n : Nat) (dom : Domains) (q : List Arc) (d2 : Domains), QOK c q →
      (∀ v ∈ c.vars, dom v ≠ []) → ac3Loop c n dom q = some (true, d2) →
      ∀ v ∈ c.vars, d2 v ≠ [] := by
  intro n
  induction n with
  | zero =>
    intro dom q d2 _ _ h
    simp [ac3Loop] at h
  | succ n ih =>
    intro dom q d2 hq hne h
    cases q with
    | nil =>
      simp only [ac3Loop, Option.some.injEq, Prod.mk.injEq] at h
      exact h.2 ▸ hne
    | cons p rest =>
      obtain ⟨X, Y⟩ := p
      simp only [ac3Loop] at h
      cases hrev : revise c X Y dom with
      | mk r dom' =>
        rw [hrev] at h
        cases r with
        | true =>
          dsimp only at h
          by_cases he : dom' X = []
          · rw [if_pos he] at h
            simp at h
          · rw [if_neg he] at h
            refine ih dom' _ d2 (QOK_step hq) ?_ h
            intro v hv
            by_cases hvX : v = X
            · rw [hvX]
              exact he
            · have := @revise_other c X Y dom v hvX
              rw [hrev] at this
              dsimp only at this
              rw [this]
              exact hne v hv
        | false =>
          dsimp only at h
          exact ih dom rest d2 (QOK_tail hq) hne h

/-! ### Arc consistency on successful termination of AC-3 -/

theorem hasSupport_iff {domY : List Word} {i j : Nat} {wx : Word} :
    hasSupport domY i j wx = true ↔ ∃ wy ∈ domY, wx.getD i 'A' = wy.getD j 'A' := by
  simp [hasSupport, List.any_eq_true]

theorem revise_true_self_supported {c : Model} {X Y : Variable} {dom : Domains}
    (hYX : Y ≠ X) (hr : (revise c X Y dom).1 = true) :
    PairSupported c ((revise c X Y dom).2) X Y := by
  intro i j hov w hw
  obtain ⟨i0, j0, hov0, heq, _⟩ := revise_true_eq hr
  rw [hov0] at hov
  injection hov with hov
  obtain ⟨hi, hj⟩ := Prod.mk.injEq .. ▸ hov
  subst hi
  subst hj
  rw [heq] at hw
  have := (List.mem_filter.mp hw).2
  rw [revise_other hYX]
  exact this

theorem pairSupported_rev_preserved {c : Model} (hwf : WellFormed c)
    {X Y : Variable} {dom : Domains} (hYX : Y ≠ X)
    (hsup : PairSupported c dom Y X) (hr : (revise c X Y dom).1 = true) :
    PairSupported c ((revise c X Y dom).2) Y X := by
  intro i j hov wy hwy'
  rw [revise_other hYX] at hwy'
  have hS := hsup i j hov wy hwy'
  obtain ⟨wb, hwb, hag⟩ := hasSupport_iff.mp hS
  obtain ⟨i0, j0, hov0, heq, _⟩ := revise_true_eq hr
  have hXY : c.overlap X Y = some (j, i) := overlap_symm hwf hov
  rw [hov0] at hXY
  injection hXY with hXY
  obtain ⟨hj0, hi0⟩ := Prod.mk.injEq .. ▸ hXY
  refine hasSupport_iff.mpr ⟨wb, ?_, hag⟩
  rw [heq]
  refine List.mem_filter.mpr ⟨hwb, ?_⟩
  rw [hj0, hi0]
  exact hasSupport_iff.mpr ⟨wy, hwy', hag.symm⟩

theorem ac3Loop_success_arc (c : Model) (hwf : WellFormed c) :
    ∀ (n : Nat) (dom : Domains) (q : List Arc) (d2 : Domains), QOK c q →
      AC3Inv c dom q → ac3Loop c n dom q = some (true, d2) →
      ArcConsistentP c d2 := by
  intro n
  induction n with
  | zero =>
    intro dom q d2 _ _ h
    simp [ac3Loop] at h
  | succ n ih =>
    intro dom q d2 hq hinv h
    cases q with
    | nil =>
      simp only [ac3Loop, Option.some.injEq, Prod.mk.injEq] at h
      rw [← h.2]
      intro x hx y hy hxy
      by_cases hov : (c.overlap x y).isSome = true
      · rcases hinv x hx y hy hxy hov with hmem | hsup
        · exact absurd hmem (List.not_mem_nil _)
        · exact hsup
      · intro i j hov' _ _
        rw [hov'] at hov
        simp at hov
    | cons p rest =>
      obtain ⟨X, Y⟩ := p
      simp only [ac3Loop] at h
      have hgood := hq (X, Y) (List.mem_cons_self _ _)
      cases hrev : revise c X Y dom with
      | mk r dom' =>
        rw [hrev] at h
        cases r with
        | false =>
          dsimp only at h
          refine ih dom rest d2 (QOK_tail hq) ?_ h
          intro x hx y hy hxy hovs
          rcases hinv x hx y hy hxy hovs with hmem | hsup
          · rcases List.mem_cons.mp hmem with hXY | hmem'
            · right
              obtain ⟨hx1, hy1⟩ := Prod.mk.injEq .. ▸ hXY
              subst hx1
              subst hy1
              intro i j hov w hw
              exact revise_false_supported hov (by rw [hrev]) w hw
            · exact Or.inl hmem'
          · exact Or.inr hsup
        | true =>
          dsimp only at h
          by_cases he : dom' X = []
          · rw [if_pos he] at h
            simp at h
          · rw [if_neg he] at h
            refine ih dom' _ d2 (QOK_step hq) ?_ h
            intro x hx y hy hxy hovs
            have hrtrue : (revise c X Y dom).1 = true := by rw [hrev]
            rcases hinv x hx y hy hxy hovs with hmem | hsup
            · rcases List.mem_cons.mp hmem with hXY | hmem'
              · right
                obtain ⟨hx1, hy1⟩ := Prod.mk.injEq .. ▸ hXY
                subst hx1
                subst hy1
                have hsupXY := revise_true_self_supported (Ne.symm hgood.2.2) hrtrue
                rw [hrev] at hsupXY
                exact hsupXY
              · exact Or.inl (List.mem_append_left _ hmem')
            · by_cases hyX : y = X
              · subst hyX
                by_cases hxY : x = Y
                · subst hxY
                  right
                  have := pairSupported_rev_preserved hwf (hxy) hsup hrtrue
                  rw [hrev] at this
                  exact this
                · left
                  refine List.mem_append_right _ (mem_enqueueArcs.mpr ⟨?_, hxY, rfl⟩)
                  obtain ⟨⟨i, j⟩, hov⟩ := Option.isSome_iff_exists.mp hovs
                  have := overlap_symm hwf hov
                  exact mem_neighbors.mpr ⟨hx, hxy, by rw [this]; rfl⟩
              · right
                intro i j hov w hw
                have hsub : w ∈ dom x := by
                  have := @revise_subset c X Y dom x w
                  rw [hrev] at this
                  exact this hw
                have hy' : dom' y = dom y := by
                  have := @revise_other c X Y dom y hyX
                  rw [hrev] at this
                  exact this
                rw [hy']
                exact hsup i j hov w hsub

/-! ### Idempotence on arc-consistent stores, Bool/Prop bridges -/

theorem initArcs_inv (c : Model) (dom : Domains) : AC3Inv c dom (initArcs c) := by
  intro x hx y hy hxy hovs
  exact Or.inl (mem_initArcs.mpr ⟨hx, hy, fun he => hxy he.symm, hovs⟩)

theorem revise_noop_of_supported {c : Model} {X Y : Variable} {dom : Domains}
    (hsup : PairSupported c dom X Y) : revise c X Y dom = (false, dom) := by
  cases hov : c.overlap X Y with
  | none => exact revise_of_no_overlap dom hov
  | some p =>
    obtain ⟨i, j⟩ := p
    have hr : (dom X).any (fun wx => !hasSupport (dom Y) i j wx) = false := by
      rw [List.any_eq_false]
      intro w hw
      simp [hsup i j hov w hw]
    simp only [revise, hov, hr]
    simp

theorem ac3Loop_noop (c : Model) (dom : Domains) (harc : ArcConsistentP c dom) :
    ∀ (q : List Arc) (n : Nat), QOK c q → q.length < n →
      ac3Loop c n dom q = some (true, dom) := by
  intro q
  induction q with
  | nil =>
    intro n _ hn
    cases n with
    | zero => omega
    | succ n => simp [ac3Loop]
  | cons p rest ih =>
    intro n hq hn
    obtain ⟨X, Y⟩ := p
    cases n with
    | zero => simp at hn
    | succ n =>
      simp only [ac3Loop]
      have hgood := hq (X, Y) (List.mem_cons_self _ _)
      have hno : revise c X Y dom = (false, dom) :=
        revise_noop_of_supported (harc X hgood.1 Y hgood.2.1 hgood.2.2)
      rw [hno]
      dsimp only
      refine ih n (QOK_tail hq) ?_
      simp only [List.length_cons] at hn
      omega

theorem ac3_idempotent {c : Model} {dom : Domains} (harc : ArcConsistentP c dom) :
    ac3 c dom = (true, dom) := by
  have hloop := ac3Loop_noop c dom harc (initArcs c) (ac3Measure c dom (initArcs c))
    (initArcs_QOK c) (by unfold ac3Measure; omega)
  have heq := ac3_eq_loop c dom
  rw [hloop] at heq
  exact (Option.some.inj heq).symm

theorem arcConsistentB_iff {c : Model} {dom : Domains} :
    ArcConsistentB c dom = true ↔ ArcConsistentP c dom := by
  simp only [ArcConsistentB, List.all_eq_true]
  constructor
  · intro h x hx y hy hxy i j hov w hw
    have h2 := h x hx y hy
    rw [if_neg hxy, hov] at h2
    dsimp only at h2
    exact List.all_eq_true.mp h2 w hw
  · intro h x hx y hy
    by_cases hxy : x = y
    · rw [if_pos hxy]
    · rw [if_neg hxy]
      cases hov : c.overlap x y with
      | none => rfl
      | some p =>
        obtain ⟨i, j⟩ := p
        dsimp only
        exact List.all_eq_true.mpr (fun w hw => h x hx y hy hxy i j hov w hw)

theorem lenInvB_iff {c : Model} {dom : Domains} :
    LenInvB c dom = true ↔ ∀ v ∈ c.vars, ∀ w ∈ dom v, w.length = v.length := by
  simp [LenInvB, List.all_eq_true]

/-! ### Backtracking search: frame, variable selection, soundness -/

theorem btLoop_frame {c : Model}
    {recur : Domains → Assignment → Option Assignment × Domains}
    (hrec : ∀ dom asg, (recur dom asg).2 = dom) (asg : Assignment) (var : Variable) :
    ∀ (dom : Domains) (l : List Word), (btLoop recur c asg var dom l).2 = dom := by
  intro dom l
  induction l generalizing dom with
  | nil => rfl
  | cons w ws ih =>
    simp only [btLoop]
    by_cases hc : consistent c (dictSet asg var w) = true
    · rw [if_pos hc]
      cases hr : recur dom (dictSet asg var w) with
      | mk o d2 =>
        have hd : d2 = dom := by
          have h2 := hrec dom (dictSet asg var w)
          rw [hr] at h2
          exact h2
        cases o with
        | some r => exact hd
        | none =>
          dsimp only
          rw [ih d2, hd]
    · rw [if_neg hc]
      exact ih dom

theorem backtrackS_frame (c : Model) :
    ∀ (n : Nat) (dom : Domains) (asg : Assignment), (backtrackS c n dom asg).2 = dom := by
  intro n
  induction n with
  | zero => intro dom asg; rfl
  | succ n ih =>
    intro dom asg
    simp only [backtrackS]
    by_cases hc : assignment_complete c asg = true
    · rw [if_pos hc]
    · rw [if_neg hc]
      cases select_unassigned_variable c dom asg with
      | none => rfl
      | some var => exact btLoop_frame (fun d a => ih d a) asg var dom _

theorem select_mem {c : Model} {dom : Domains} {asg : Assignment}
    (h : ∃ v ∈ c.vars, alookup asg v = none) :
    ∃ var, select_unassigned_variable c dom asg = some var ∧ var ∈ c.vars ∧
      alookup asg var = none := by
  obtain ⟨v, hv, hnone⟩ := h
  have hvu : v ∈ c.vars.filter (fun u => (alookup asg u).isNone) :=
    List.mem_filter.mpr ⟨hv, by rw [hnone]; rfl⟩
  cases hs : sortByKey (fun u => (dom u).length)
      (c.vars.filter (fun u => (alookup asg u).isNone)) with
  | nil =>
    rw [sortByKey_nil_iff] at hs
    rw [hs] at hvu
    exact absurd hvu (List.not_mem_nil v)
  | cons m0 ms =>
    have hm0 : m0 ∈ c.vars.filter (fun u => (alookup asg u).isNone) := by
      rw [← mem_sortByKey (fun u => (dom u).length)]
      rw [hs]
      exact List.mem_cons_self _ _
    have hm0' := List.mem_filter.mp hm0
    have hm0none : alookup asg m0 = none := by
      have := hm0'.2
      simpa [Option.isNone_iff_eq_none] using this
    refine ⟨m0, ?_, hm0'.1, hm0none⟩
    simp only [select_unassigned_variable, hs]
    have hpos : ((dom m0).length == (dom m0).length) = true := by simp
    have hstep : List.filter (fun u => (dom u).length == (dom m0).length) (m0 :: ms)
        = m0 :: List.filter (fun u => (dom u).length == (dom m0).length) ms := by
      simp only [List.filter_cons]
      rw [if_pos hpos]
    rw [hstep]
    dsimp only
    by_cases hrest : ((ms.filter (fun u => (dom u).length == (dom m0).length)).isEmpty) = true
    · rw [if_pos hrest]
    · rw [if_neg hrest]
      exact suvLoop_self _ _ _

theorem btLoop_sound {c : Model}
    {recur : Domains → Assignment → Option Assignment × Domains}
    (hrec : ∀ dom asg r, consistent c asg = true → (recur dom asg).1 = some r →
      assignment_complete c r = true ∧ consistent c r = true)
    (asg : Assignment) (var : Variable) :
    ∀ (dom : Domains) (l : List Word) (r : Assignment),
      (btLoop recur c asg var dom l).1 = some r →
      assignment_complete c r = true ∧ consistent c r = true := by
  intro dom l
  induction l generalizing dom with
  | nil =>
    intro r h
    simp [btLoop] at h
  | cons w ws ih =>
    intro r h
    simp only [btLoop] at h
    by_cases hc : consistent c (dictSet asg var w) = true
    · rw [if_pos hc] at h
      cases hr : recur dom (dictSet asg var w) with
      | mk o d2 =>
        rw [hr] at h
        cases o with
        | some r2 =>
          dsimp only at h
          refine hrec dom (dictSet asg var w) r hc ?_
          rw [hr]
          exact h
        | none =>
          dsimp only at h
          exact ih d2 r h
    · rw [if_neg hc] at h
      exact ih dom r h

theorem backtrackS_sound (c : Model) :
    ∀ (n : Nat) (dom : Domains) (asg r : Assignment),
      consistent c asg = true → (backtrackS c n dom asg).1 = some r →
      assignment_complete c r = true ∧ consistent c r = true := by
  intro n
  induction n with
  | zero =>
    intro dom asg r _ h
    simp [backtrackS] at h
  | succ n ih =>
    intro dom asg r hcons h
    simp only [backtrackS] at h
    by_cases hc : assignment_complete c asg = true
    · rw [if_pos hc] at h
      dsimp only at h
      injection h with h2
      rw [← h2]
      exact ⟨hc, hcons⟩
    · rw [if_neg hc] at h
      cases hsel : select_unassigned_variable c dom asg with
      | none =>
        rw [hsel] at h
        simp at h
      | some var =>
        rw [hsel] at h
        dsimp only at h
        exact btLoop_sound (fun d2 a2 r2 hc2 h2 => ih d2 a2 r2 hc2 h2) asg var dom _ r h

theorem consistent_nil (c : Model) : consistent c [] = true := rfl

/-! ### An empty domain of an unassigned variable dooms the search -/

theorem assignment_complete_iff {c : Model} {asg : Assignment} :
    assignment_complete c asg = true ↔ ∀ v ∈ c.vars, (alookup asg v).isSome = true := by
  simp [assignment_complete, List.all_eq_true]

theorem not_complete_exists {c : Model} {asg : Assignment}
    (h : ¬ assignment_complete c asg = true) : ∃ v ∈ c.vars, alookup asg v = none := by
  rw [assignment_complete_iff] at h
  push_neg at h
  obtain ⟨v, hv, hns⟩ := h
  refine ⟨v, hv, ?_⟩
  cases halt : alookup asg v with
  | none => rfl
  | some w =>
    rw [halt] at hns
    simp at hns

theorem btLoop_none_aux (c : Model) (n : Nat)
    (ih : ∀ (dom : Domains) (asg : Assignment),
      (∃ v ∈ c.vars, alookup asg v = none ∧ dom v = []) →
      (backtrackS c n dom asg).1 = none)
    (asg : Assignment) (var v : Variable) (hp : alookup asg var = none)
    (hvv : var ≠ v) (hv : v ∈ c.vars) (hnone : alookup asg v = none) :
    ∀ (dom : Domains) (l : List Word), dom v = [] →
      (btLoop (backtrackS c n) c asg var dom l).1 = none := by
  intro dom l
  induction l generalizing dom with
  | nil => intro _; rfl
  | cons w ws ihl =>
    intro hemp
    simp only [btLoop]
    by_cases hc : consistent c (dictSet asg var w) = true
    · rw [if_pos hc]
      cases hr : backtrackS c n dom (dictSet asg var w) with
      | mk o d2 =>
        have hd2 : d2 = dom := by
          have hf := backtrackS_frame c n dom (dictSet asg var w)
          rw [hr] at hf
          exact hf
        have ho : o = none := by
          have hnone' : alookup (dictSet asg var w) v = none := by
            rw [alookup_dictSet_other w hp hvv]
            exact hnone
          have h2 := ih dom (dictSet asg var w) ⟨v, hv, hnone', hemp⟩
          rw [hr] at h2
          exact h2
        rw [ho]
        dsimp only
        rw [hd2]
        exact ihl dom hemp
    · rw [if_neg hc]
      exact ihl dom hemp

theorem backtrackS_none_of_empty (c : Model) :
    ∀ (n : Nat) (dom : Domains) (asg : Assignment),
      (∃ v ∈ c.vars, alookup asg v = none ∧ dom v = []) →
      (backtrackS c n dom asg).1 = none := by
  intro n
  induction n with
  | zero => intro dom asg _; rfl
  | succ n ih =>
    intro dom asg hex
    obtain ⟨v, hv, hnone, hemp⟩ := hex
    simp only [backtrackS]
    have hnc : ¬ assignment_complete c asg = true := by
      intro hcomp
      have hs := assignment_complete_iff.mp hcomp v hv
      rw [hnone] at hs
      simp at hs
    rw [if_neg hnc]
    obtain ⟨var, hsel, hvar, hvnone⟩ := select_mem ⟨v, hv, hnone⟩
    rw [hsel]
    dsimp only
    by_cases hveq : var = v
    · have hord : order_domain_values c dom asg var = [] := by
        unfold order_domain_values
        rw [hveq, hemp]
        rfl
      rw [hord]
      rfl
    · exact btLoop_none_aux c n ih asg var v hvnone hveq hv hnone dom
        (order_domain_values c dom asg var) hemp

theorem solve_none_of_ac3_false {c : Model}
    (h : (ac3 c (enforce_node_consistency (initDomains c))).1 = false) :
    solve c = none := by
  cases hac : ac3 c (enforce_node_consistency (initDomains c)) with
  | mk b d2 =>
    rw [hac] at h
    dsimp only at h
    subst h
    have heq := ac3_eq_loop c (enforce_node_consistency (initDomains c))
    rw [hac] at heq
    obtain ⟨v, hv, hemp⟩ := ac3Loop_false_empty c _
      (enforce_node_consistency (initDomains c)) (initArcs c) d2 (initArcs_QOK c) heq
    show (backtrackS c (c.vars.length + 1)
      (ac3 c (enforce_node_consistency (initDomains c))).2 []).1 = none
    rw [hac]
    exact backtrackS_none_of_empty c _ d2 [] ⟨v, hv, rfl, hemp⟩

/-! ### Restrictions of a total solution pass the Consistency Checker -/

theorem pair_eq_of_keys_nodup {l : List (Variable × Word)}
    (hnd : (l.map Prod.fst).Nodup) {p q : Variable × Word}
    (hp : p ∈ l) (hq : q ∈ l) (hfst : p.1 = q.1) : p = q := by
  induction l with
  | nil => simp at hp
  | cons a t ih =>
    simp only [List.map_cons, List.nodup_cons] at hnd
    rcases List.mem_cons.mp hp with rfl | hp'
    · rcases List.mem_cons.mp hq with rfl | hq'
      · rfl
      · exact absurd (List.mem_map.mpr ⟨q, hq', hfst.symm⟩) hnd.1
    · rcases List.mem_cons.mp hq with rfl | hq'
      · exact absurd (List.mem_map.mpr ⟨p, hp', hfst⟩) hnd.1
      · exact ih hnd.2 hp' hq'

theorem valuesDistinct_of_nodup {asg : Assignment}
    (h : (asg.map (fun p => p.2)).Nodup) : valuesDistinct asg = true := by
  unfold valuesDistinct
  rw [List.dedup_eq_self.mpr h, List.length_map]
  simp

theorem alookup_none_iff {α β : Type} [DecidableEq α] {l : List (α × β)} {a : α} :
    alookup l a = none ↔ a ∉ l.map Prod.fst := by
  induction l with
  | nil => simp [alookup]
  | cons p t ih =>
    obtain ⟨k, v⟩ := p
    by_cases hk : k = a
    · simp [alookup, hk]
    · simp [alookup, hk, ih, Ne.symm hk]

theorem solution_consistent {c : Model} {f : Variable → Word}
    (hsol : SolutionP c f) {asg : Assignment} (hok : AsgOK c f asg) :
    consistent c asg = true := by
  obtain ⟨hS1, hS2, hS3, hS4⟩ := hsol
  obtain ⟨hnd, hent⟩ := hok
  unfold consistent
  rw [Bool.and_eq_true, Bool.and_eq_true]
  refine ⟨⟨?_, ?_⟩, ?_⟩
  · apply valuesDistinct_of_nodup
    refine List.Nodup.map_on ?_ (List.Nodup.of_map _ hnd)
    intro p hp q hq hpq
    have h1 := hent p hp
    have h2 := hent q hq
    by_cases hkey : p.1 = q.1
    · exact pair_eq_of_keys_nodup hnd hp hq hkey
    · exact absurd (by rw [← h1.2, ← h2.2]; exact hpq) (hS3 p.1 h1.1 q.1 h2.1 hkey)
  · rw [lengthsMatch, List.all_eq_true]
    intro p hp
    have h1 := hent p hp
    simp [h1.2, hS2 p.1 h1.1]
  · unfold noConflicts
    rw [List.all_eq_true]
    intro p hp
    rw [List.all_eq_true]
    intro nb hnb
    cases hlk : alookup asg nb with
    | none => rfl
    | some wnb =>
      dsimp only
      cases hov : c.overlap p.1 nb with
      | none => rfl
      | some ij =>
        obtain ⟨i, j⟩ := ij
        dsimp only
        have hnbok := hent (nb, wnb) (alookup_mem hlk)
        have hpok := hent p hp
        have hnbn := mem_neighbors.mp hnb
        have hag := hS4 p.1 hpok.1 nb hnbok.1 (Ne.symm hnbn.2.1) i j hov
        have hw : wnb = f nb := hnbok.2
        rw [beq_iff_eq, hpok.2, hw]
        exact hag

/-! ### Completeness of the backtracking search -/

theorem asgOK_extend {c : Model} {f : Variable → Word} {asg : Assignment}
    (hok : AsgOK c f asg) {var : Variable} (hvar : var ∈ c.vars)
    (hnone : alookup asg var = none) : AsgOK c f (dictSet asg var (f var)) := by
  rw [dictSet_fresh _ hnone]
  constructor
  · rw [List.map_append]
    rw [List.nodup_append]
    refine ⟨hok.1, List.nodup_singleton _, ?_⟩
    intro a ha hb
    simp only [List.map_cons, List.map_nil, List.mem_singleton] at hb
    rw [hb] at ha
    exact (alookup_none_iff.mp hnone) ha
  · intro p hp
    rcases List.mem_append.mp hp with hmem | hmem
    · exact hok.2 p hmem
    · rw [List.mem_singleton] at hmem
      rw [hmem]
      exact ⟨hvar, rfl⟩

theorem filter_length_change {var : Variable} {pOld pNew : Variable → Bool}
    (h1 : pOld var = true) (h2 : pNew var = false)
    (hsame : ∀ u, u ≠ var → pNew u = pOld u) :
    ∀ (l : List Variable), l.Nodup → var ∈ l →
      (l.filter pNew).length + 1 = (l.filter pOld).length := by
  intro l
  induction l with
  | nil =>
    intro _ h
    simp at h
  | cons a t ih =>
    intro hnd hmem
    rw [List.nodup_cons] at hnd
    by_cases ha : a = var
    · have hfe : t.filter pNew = t.filter pOld := by
        apply List.filter_congr
        intro u hu
        refine hsame u ?_
        intro he
        apply hnd.1
        rw [ha, ← he]
        exact hu
      rw [List.filter_cons, List.filter_cons, ha, h1, h2]
      simp [hfe]
    · have hmem' : var ∈ t := by
        rcases List.mem_cons.mp hmem with h | h
        · exact absurd h.symm ha
        · exact h
      have heq : pNew a = pOld a := hsame a ha
      rw [List.filter_cons, List.filter_cons, heq]
      cases hpa : pOld a with
      | true =>
        simp only [if_true, List.length_cons]
        have := ih hnd.2 hmem'
        omega
      | false =>
        simp only [Bool.false_eq_true, if_false]
        exact ih hnd.2 hmem'

theorem unassignedCount_extend {c : Model} (hnd : c.vars.Nodup) {asg : Assignment}
    {var : Variable} (hvar : var ∈ c.vars) (hnone : alookup asg var = none)
    (w : Word) : unassignedCount c (dictSet asg var w) + 1 = unassignedCount c asg := by
  unfold unassignedCount
  refine filter_length_change ?_ ?_ ?_ c.vars hnd hvar
  · rw [hnone]
    rfl
  · rw [alookup_dictSet_self w hnone]
    rfl
  · intro u hu
    rw [alookup_dictSet_other w hnone (Ne.symm hu)]

theorem revise_keeps_domok {c : Model} {f : Variable → Word} (hsol : SolutionP c f)
    {x y : Variable} (hx : x ∈ c.vars) (hy : y ∈ c.vars) (hxy : x ≠ y)
    {dom : Domains} (hdom : DomOK c f dom) : DomOK c f ((revise c x y dom).2) := by
  intro v hv
  by_cases hvx : v = x
  · rw [hvx]
    cases hov : c.overlap x y with
    | none =>
      rw [revise_of_no_overlap dom hov]
      exact hdom x hx
    | some ij =>
      obtain ⟨i, j⟩ := ij
      refine revise_keeps_supported hov (hdom x hx) ?_
      exact hasSupport_iff.mpr ⟨f y, hdom y hy, hsol.2.2.2 x hx y hy hxy i j hov⟩
  · rw [revise_other hvx]
    exact hdom v hv

theorem btLoop_some_aux (c : Model) (n : Nat) (dom : Domains) (asg : Assignment)
    (var : Variable) (f : Variable → Word) (hsol : SolutionP c f)
    (hok : AsgOK c f asg) (hvar : var ∈ c.vars) (hnone : alookup asg var = none)
    (hrec : ∀ asg2, AsgOK c f asg2 → unassignedCount c asg2 < n →
      ((backtrackS c n dom asg2).1).isSome = true)
    (hcnt : unassignedCount c asg < n + 1) (hnd : c.vars.Nodup) :
    ∀ (l : List Word), f var ∈ l →
      ((btLoop (backtrackS c n) c asg var dom l).1).isSome = true := by
  intro l
  induction l with
  | nil =>
    intro h
    simp at h
  | cons w ws ihl =>
    intro hmem
    simp only [btLoop]
    by_cases hw : w = f var
    · have hok' : AsgOK c f (dictSet asg var (f var)) := asgOK_extend hok hvar hnone
      have hcons : consistent c (dictSet asg var (f var)) = true :=
        solution_consistent hsol hok'
      rw [hw, if_pos hcons]
      have hcnt' : unassignedCount c (dictSet asg var (f var)) < n := by
        have hstep1 : 1 ≤ unassignedCount c asg := by
          have hvm : var ∈ c.vars.filter (fun v => (alookup asg v).isNone) :=
            List.mem_filter.mpr ⟨hvar, by rw [hnone]; rfl⟩
          have := List.length_pos.mpr (List.ne_nil_of_mem hvm)
          unfold unassignedCount
          omega
        have := unassignedCount_extend hnd hvar hnone (f var)
        omega
      have hrecs := hrec _ hok' hcnt'
      cases hr : backtrackS c n dom (dictSet asg var (f var)) with
      | mk o d2 =>
        rw [hr] at hrecs
        cases o with
        | some r => rfl
        | none => simp at hrecs
    · have hmem' : f var ∈ ws := by
        rcases List.mem_cons.mp hmem with h | h
        · exact absurd h.symm hw
        · exact h
      by_cases hcons : consistent c (dictSet asg var w) = true
      · rw [if_pos hcons]
        cases hr : backtrackS c n dom (dictSet asg var w) with
        | mk o d2 =>
          have hd2 : d2 = dom := by
            have hf := backtrackS_frame c n dom (dictSet asg var w)
            rw [hr] at hf
            exact hf
          cases o with
          | some r => rfl
          | none =>
            dsimp only
            rw [hd2]
            exact ihl hmem'
      · rw [if_neg hcons]
        exact ihl hmem'

theorem backtrackS_some_of_solution {c : Model} (hnd : c.vars.Nodup)
    {f : Variable → Word} (hsol : SolutionP c f) :
    ∀ (n : Nat) (asg : Assignment) (dom : Domains), DomOK c f dom → AsgOK c f asg →
      unassignedCount c asg < n → ((backtrackS c n dom asg).1).isSome = true := by
  intro n
  induction n with
  | zero =>
    intro asg dom _ _ h
    omega
  | succ n ih =>
    intro asg dom hdom hok hcnt
    simp only [backtrackS]
    by_cases hc : assignment_complete c asg = true
    · rw [if_pos hc]
      rfl
    · rw [if_neg hc]
      obtain ⟨var, hsel, hvar, hnone⟩ := select_mem (not_complete_exists hc)
      rw [hsel]
      dsimp only
      have hmemval : f var ∈ order_domain_values c dom asg var := by
        unfold order_domain_values
        rw [mem_sortByKey]
        exact hdom var hvar
      exact btLoop_some_aux c n dom asg var f hsol hok hvar hnone
        (fun asg2 hok2 hcnt2 => ih asg2 dom hdom hok2 hcnt2) hcnt hnd
        (order_domain_values c dom asg var) hmemval

theorem solve_isSome_of_solution {c : Model} (hwf : WellFormed c)
    {f : Variable → Word} (hsol : SolutionP c f) : (solve c).isSome = true := by
  have hd1 : DomOK c f (enforce_node_consistency (initDomains c)) := by
    intro v hv
    refine List.mem_filter.mpr ⟨hsol.1 v hv, ?_⟩
    simp [hsol.2.1 v hv]
  have hd2 : DomOK c f ((ac3 c (enforce_node_consistency (initDomains c))).2) := by
    have heq := ac3_eq_loop c (enforce_node_consistency (initDomains c))
    cases hac : ac3 c (enforce_node_consistency (initDomains c)) with
    | mk b d2 =>
      rw [hac] at heq
      have hpres := ac3Loop_preserves c
        (fun x y dom2 hx hy hxy hP => revise_keeps_domok hsol hx hy hxy hP)
        (ac3Measure c (enforce_node_consistency (initDomains c)) (initArcs c))
        (enforce_node_consistency (initDomains c)) (initArcs c) b d2
        (initArcs_QOK c) hd1 heq
      exact hpres
  show ((backtrackS c (c.vars.length + 1)
    (ac3 c (enforce_node_consistency (initDomains c))).2 []).1).isSome = true
  refine backtrackS_some_of_solution hwf.1 hsol (c.vars.length + 1) [] _ hd2 ?_ ?_
  · exact ⟨List.nodup_nil, fun p hp => absurd hp (List.not_mem_nil p)⟩
  · unfold unassignedCount
    have := List.length_filter_le (fun v => (alookup ([] : Assignment) v).isNone) c.vars
    omega

/-! ### Remaining helper lemmas for the claim theorems -/

theorem domok_propagation {c : Model} {f : Variable → Word} (hsol : SolutionP c f) :
    DomOK c f ((ac3 c (enforce_node_consistency (initDomains c))).2) := by
  have hd1 : DomOK c f (enforce_node_consistency (initDomains c)) := by
    intro v hv
    refine List.mem_filter.mpr ⟨hsol.1 v hv, ?_⟩
    simp [hsol.2.1 v hv]
  have heq := ac3_eq_loop c (enforce_node_consistency (initDomains c))
  cases hac : ac3 c (enforce_node_consistency (initDomains c)) with
  | mk b d2 =>
    rw [hac] at heq
    exact ac3Loop_preserves c
      (fun x y dom2 hx hy hxy hP => revise_keeps_domok hsol hx hy hxy hP)
      (ac3Measure c (enforce_node_consistency (initDomains c)) (initArcs c))
      (enforce_node_consistency (initDomains c)) (initArcs c) b d2
      (initArcs_QOK c) hd1 heq

theorem revise_fst_eq {c : Model} {x y : Variable} {dom : Domains} {i j : Nat}
    (hov : c.overlap x y = some (i, j)) :
    (revise c x y dom).1 = (dom x).any (fun wx => !hasSupport (dom y) i j wx) := by
  simp only [revise, hov]
  by_cases hr : (dom x).any (fun wx => !hasSupport (dom y) i j wx) = true
  · rw [if_pos hr, hr]
  · rw [if_neg hr]
    exact (Bool.not_eq_true _).mp hr |>.symm

theorem lenInv_mono {c : Model} {d1 d2 : Domains}
    (hsub : ∀ v, ∀ w ∈ d2 v, w ∈ d1 v) (h : LenInvB c d1 = true) :
    LenInvB c d2 = true := by
  rw [lenInvB_iff] at h ⊢
  intro v hv w hw
  exact h v hv w (hsub v w hw)

/-! ### The claims -/

/-- C1: for every well-formed Puzzle Model, any assignment returned by
`solve()` assigns every variable and passes the Consistency Checker in
full: pairwise-distinct words, correct lengths, and agreement at every
defined overlap of assigned neighbors. -/
theorem c1_solution_validity {c : Model} {a : Assignment} (hwf : WellFormed c)
    (h : solve c = some a) :
    assignment_complete c a = true ∧ consistent c a = true ∧
      valuesDistinct a = true ∧ lengthsMatch a = true ∧ noConflicts c a = true := by
  have h' : (backtrackS c (c.vars.length + 1)
      (ac3 c (enforce_node_consistency (initDomains c))).2 []).1 = some a := h
  have hsound := backtrackS_sound c (c.vars.length + 1)
    (ac3 c (enforce_node_consistency (initDomains c))).2 [] a (consistent_nil c) h'
  obtain ⟨hcomp, hcons⟩ := hsound
  have hc3 := hcons
  unfold consistent at hc3
  rw [Bool.and_eq_true, Bool.and_eq_true] at hc3
  exact ⟨hcomp, hcons, hc3.1.1, hc3.1.2, hc3.2⟩

/-- C1 witness: on the solvable two-slot fixture, `solve` returns the
assignment (vAc ↦ "ab", vDn ↦ "ac"), which is complete and consistent. -/
theorem c1_solution_validity_witness :
    assignment_complete mSolve [(vAc, ['a', 'b']), (vDn, ['a', 'c'])] = true ∧
      consistent mSolve [(vAc, ['a', 'b']), (vDn, ['a', 'c'])] = true ∧
      valuesDistinct [(vAc, ['a', 'b']), (vDn, ['a', 'c'])] = true ∧
      lengthsMatch [(vAc, ['a', 'b']), (vDn, ['a', 'c'])] = true ∧
      noConflicts mSolve [(vAc, ['a', 'b']), (vDn, ['a', 'c'])] = true :=
  c1_solution_validity (by unfold WellFormed; decide) (by decide)

/-- C2: for every well-formed Puzzle Model, if `solve()` returns the
failure sentinel then no total assignment of pool words satisfies the
three constraints; moreover node consistency and AC-3 never discard a
value that belongs to some solution. -/
theorem c2_failure_correctness {c : Model} (hwf : WellFormed c) :
    (solve c = none → ¬ ∃ f : Variable → Word, SolutionP c f) ∧
      (∀ f : Variable → Word, SolutionP c f →
        DomOK c f ((ac3 c (enforce_node_consistency (initDomains c))).2)) := by
  constructor
  · rintro hnone ⟨f, hf⟩
    have hs := solve_isSome_of_solution hwf hf
    rw [hnone] at hs
    simp at hs
  · intro f hf
    exact domok_propagation hf

/-- C2 witness: the one-slot fixture whose pool has no word of the right
length is correctly reported unsolvable. -/
theorem c2_failure_correctness_witness :
    ¬ ∃ f : Variable → Word, SolutionP mNoSol f :=
  (c2_failure_correctness (by unfold WellFormed; decide)).1 (by decide)

/-- C3 counterexample: on `mAc3Fail` AC-3 reports failure, yet `solve`
still enters the backtracking search (one `backtrack` invocation), so
"failure with no search attempted" is false of the code: `solve` discards
the boolean result of `ac3`. -/
theorem c3_counterexample :
    (ac3 mAc3Fail (enforce_node_consistency (initDomains mAc3Fail))).1 = false ∧
      solveBacktrackCalls mAc3Fail ≠ 0 := by decide

/-- C3 (amended): `solve()` sequences the Node-Consistency Filter, AC-3 on
the full worklist, and Backtracking Search from the empty assignment, but
it ignores AC-3's boolean result and always invokes the search (at least
one `backtrack` call); when AC-3 reports failure the search necessarily
finds nothing, so `solve()` still returns the failure sentinel. -/
theorem c3_sequencing_amended (c : Model) :
    solve c = backtrack c (c.vars.length + 1)
        (ac3 c (enforce_node_consistency (initDomains c))).2 [] ∧
      1 ≤ solveBacktrackCalls c ∧
      ((ac3 c (enforce_node_consistency (initDomains c))).1 = false →
        solve c = none) := by
  refine ⟨rfl, ?_, fun h => solve_none_of_ac3_false h⟩
  show 1 ≤ backtrackCount c (c.vars.length + 1)
    (ac3 c (enforce_node_consistency (initDomains c))).2 []
  simp only [backtrackCount]
  omega

/-- C3 witness: on the propagation-failure fixture the amended claim
yields the failure sentinel. -/
theorem c3_sequencing_amended_witness : solve mAc3Fail = none :=
  (c3_sequencing_amended mAc3Fail).2.2 (by decide)

/-- C4: failing input for the MRV degree tie-break. In `mTie` with Domain
Store `domTie` and the empty assignment, `wva` and `wvb` are both
unassigned and tie on the minimal domain size 1, `wvb` has strictly more
neighbors than `wva`, yet `select_unassigned_variable` returns `wva`: the
loop recomputes `degree = neighbors(mnrm[0])`, compares it against itself,
and can never switch to the higher-degree candidate. -/
theorem c4_failing_input :
    select_unassigned_variable mTie domTie [] = some wva ∧
      alookup ([] : Assignment) wva = none ∧
      alookup ([] : Assignment) wvb = none ∧
      (domTie wva).length = (domTie wvb).length ∧
      (domTie wvb).length < (domTie wvc).length ∧
      (mTie.neighbors wva).length < (mTie.neighbors wvb).length := by decide

/-- C5 counterexample: with one isolated variable and an empty word pool,
`ac3` on the full worklist leaves the (already empty) domain empty and
still returns success, refuting "returns success exactly when every
variable's domain is left non-empty". -/
theorem c5_counterexample :
    ¬ ((ac3 mEmptyDom (initDomains mEmptyDom)).1 = true ↔
      ∀ v ∈ mEmptyDom.vars, (ac3 mEmptyDom (initDomains mEmptyDom)).2 v ≠ []) := by
  decide

/-- C5 (amended): provided every variable's domain is non-empty when
`ac3()` starts, it returns success exactly when every domain is left
non-empty (equivalently, failure exactly when some domain was driven to
empty), and on success every remaining value has at least one support in
each overlapping neighbor's domain. -/
theorem c5_ac3_amended {c : Model} {dom : Domains} (hwf : WellFormed c)
    (hne : ∀ v ∈ c.vars, dom v ≠ []) :
    ((ac3 c dom).1 = true ↔ ∀ v ∈ c.vars, (ac3 c dom).2 v ≠ []) ∧
      ((ac3 c dom).1 = true → ArcConsistentP c ((ac3 c dom).2)) := by
  have heq := ac3_eq_loop c dom
  cases hac : ac3 c dom with
  | mk b d2 =>
    rw [hac] at heq
    dsimp only
    constructor
    · constructor
      · intro hb
        subst hb
        exact ac3Loop_true_nonempty c _ dom (initArcs c) d2 (initArcs_QOK c) hne heq
      · intro hall
        cases b with
        | true => rfl
        | false =>
          obtain ⟨v, hv, hemp⟩ :=
            ac3Loop_false_empty c _ dom (initArcs c) d2 (initArcs_QOK c) heq
          exact absurd hemp (hall v hv)
    · intro hb
      subst hb
      exact ac3Loop_success_arc c hwf _ dom (initArcs c) d2 (initArcs_QOK c)
        (initArcs_inv c dom) heq

/-- C5 witness: the amended claim instantiated on the solvable fixture
with its full initial Domain Store. -/
theorem c5_ac3_amended_witness :
    ((ac3 mSolve (initDomains mSolve)).1 = true ↔
      ∀ v ∈ mSolve.vars, (ac3 mSolve (initDomains mSolve)).2 v ≠ []) ∧
      ((ac3 mSolve (initDomains mSolve)).1 = true →
        ArcConsistentP mSolve ((ac3 mSolve (initDomains mSolve)).2)) :=
  c5_ac3_amended (by unfold WellFormed; decide) (by decide)

/-- C6: `revise(x, y)` removes from `x`'s domain exactly the words with no
support in `y`'s domain at the overlap, returns True iff at least one word
was removed, removes nothing and returns False when there is no overlap,
and never touches any domain other than `x`'s. -/
theorem c6_revise_semantics (c : Model) (x y : Variable) (dom : Domains) :
    (c.overlap x y = none → revise c x y dom = (false, dom)) ∧
      (∀ i j, c.overlap x y = some (i, j) →
        (revise c x y dom).2 x =
            (dom x).filter (fun wx => hasSupport (dom y) i j wx) ∧
          ((revise c x y dom).1 = true ↔
            ∃ wx ∈ dom x, hasSupport (dom y) i j wx = false)) ∧
      (∀ v, v ≠ x → (revise c x y dom).2 v = dom v) := by
  refine ⟨fun h => revise_of_no_overlap dom h, ?_, fun v hv => revise_other hv⟩
  intro i j hov
  constructor
  · cases hr : (revise c x y dom).1 with
    | true =>
      obtain ⟨i0, j0, hov0, heq, _⟩ := revise_true_eq hr
      rw [hov0] at hov
      injection hov with hov2
      obtain ⟨h1, h2⟩ := Prod.mk.injEq .. ▸ hov2
      rw [heq, h1, h2]
    | false =>
      rw [revise_false_eq hr]
      exact (List.filter_eq_self.mpr (revise_false_supported hov hr)).symm
  · rw [revise_fst_eq hov]
    simp [List.any_eq_true]

/-- C6 witness: on the solvable fixture, revising the across slot against
the down slot keeps exactly the supported words and reports no removal. -/
theorem c6_revise_semantics_witness :
    (revise mSolve vAc vDn (initDomains mSolve)).2 vAc =
        ((initDomains mSolve) vAc).filter
          (fun wx => hasSupport ((initDomains mSolve) vDn) 0 0 wx) ∧
      ((revise mSolve vAc vDn (initDomains mSolve)).1 = true ↔
        ∃ wx ∈ (initDomains mSolve) vAc,
          hasSupport ((initDomains mSolve) vDn) 0 0 wx = false) ∧
      (revise mSolve vAc vDn (initDomains mSolve)).2 vDn =
        (initDomains mSolve) vDn := by
  have h := c6_revise_semantics mSolve vAc vDn (initDomains mSolve)
  exact ⟨(h.2.1 0 0 rfl).1, (h.2.1 0 0 rfl).2, h.2.2 vDn (by decide)⟩

/-- C7: after `enforce_node_consistency` every word in each variable's
domain has that variable's length; `revise` and `ac3` only remove words
and so preserve the invariant; hence it holds of the final propagated
Domain Store. -/
theorem c7_length_invariant (c : Model) (dom0 : Domains) :
    LenInvB c (enforce_node_consistency dom0) = true ∧
      (∀ (x y : Variable) (dom : Domains), LenInvB c dom = true →
        LenInvB c ((revise c x y dom).2) = true) ∧
      (∀ dom : Domains, LenInvB c dom = true → LenInvB c ((ac3 c dom).2) = true) ∧
      LenInvB c ((ac3 c (enforce_node_consistency (initDomains c))).2) = true := by
  have henf : ∀ d : Domains, LenInvB c (enforce_node_consistency d) = true := by
    intro d
    rw [lenInvB_iff]
    intro v hv w hw
    have hmf := List.mem_filter.mp hw
    simpa using hmf.2
  have hrev : ∀ (x y : Variable) (dom : Domains), LenInvB c dom = true →
      LenInvB c ((revise c x y dom).2) = true :=
    fun x y dom h => lenInv_mono (fun v w hw => revise_subset hw) h
  have hac3 : ∀ dom : Domains, LenInvB c dom = true →
      LenInvB c ((ac3 c dom).2) = true := by
    intro dom h
    have heq := ac3_eq_loop c dom
    cases hac : ac3 c dom with
    | mk b d2 =>
      rw [hac] at heq
      exact ac3Loop_preserves c (P := fun d => LenInvB c d = true)
        (fun x y dom2 _ _ _ hP => lenInv_mono (fun v w hw => revise_subset hw) hP)
        _ dom (initArcs c) b d2 (initArcs_QOK c) h heq
  exact ⟨henf dom0, hrev, hac3, hac3 _ (henf (initDomains c))⟩

/-- C7 witness: the length invariant evaluated on the solvable fixture's
propagated Domain Store, with the preservation step discharged on the
node-consistent store. -/
theorem c7_length_invariant_witness :
    LenInvB mSolve
      ((ac3 mSolve (enforce_node_consistency (initDomains mSolve))).2) = true := by
  have h := c7_length_invariant mSolve (initDomains mSolve)
  exact h.2.2.1 (enforce_node_consistency (initDomains mSolve)) h.1

/-- C8: every domain left by node consistency plus AC-3 is a subset of the
pre-propagation domain (words are only removed), and re-running `ac3` on
an already arc-consistent Domain Store returns success and leaves every
domain exactly unchanged. -/
theorem c8_monotonic_idempotent (c : Model) :
    (∀ (dom0 : Domains) (v : Variable) (w : Word),
      w ∈ (ac3 c (enforce_node_consistency dom0)).2 v → w ∈ dom0 v) ∧
      (∀ dom : Domains, ArcConsistentP c dom → ac3 c dom = (true, dom)) := by
  constructor
  · intro dom0 v w hw
    have heq := ac3_eq_loop c (enforce_node_consistency dom0)
    cases hac : ac3 c (enforce_node_consistency dom0) with
    | mk b d2 =>
      rw [hac] at hw
      have hpres := ac3Loop_preserves c
        (P := fun d => ∀ (u : Variable) (w2 : Word), w2 ∈ d u → w2 ∈ dom0 u)
        (fun x y dom2 _ _ _ hP u w2 hw2 => hP u w2 (revise_subset hw2))
        (ac3Measure c (enforce_node_consistency dom0) (initArcs c))
        (enforce_node_consistency dom0) (initArcs c) b d2 (initArcs_QOK c)
        (fun u w2 hw2 => (List.mem_filter.mp hw2).1) (hac ▸ heq)
      exact hpres v w hw
  · intro dom harc
    exact ac3_idempotent harc

/-- C8 witness: the solvable fixture's initial store is arc consistent, so
`ac3` returns success with the store unchanged; and a word surviving
propagation was already in the initial store. -/
theorem c8_monotonic_idempotent_witness :
    (['a', 'b'] ∈ initDomains mSolve vAc) ∧
      ac3 mSolve (initDomains mSolve) = (true, initDomains mSolve) :=
  ⟨(c8_monotonic_idempotent mSolve).1 (initDomains mSolve) vAc ['a', 'b'] (by decide),
    (c8_monotonic_idempotent mSolve).2 (initDomains mSolve)
      (arcConsistentB_iff.mp (by decide))⟩

/-- C9: the AC-3 worklist loop terminates on every finite Domain Store:
with fuel at least `ac3Measure` (total domain size × (number of variables
+ 1) + queue length + 1) the loop returns a result — every productive
dequeue strictly shrinks a finite domain — and `ac3` runs the loop with
exactly that sufficient fuel. -/
theorem c9_ac3_terminates (c : Model) :
    (∀ (n : Nat) (dom : Domains) (q : List Arc), QOK c q →
      ac3Measure c dom q ≤ n → (ac3Loop c n dom q).isSome = true) ∧
      (∀ dom : Domains,
        ac3Loop c (ac3Measure c dom (initArcs c)) dom (initArcs c) =
          some (ac3 c dom)) :=
  ⟨ac3Loop_total c, ac3_eq_loop c⟩

/-- C9 witness: the loop instantiated with sufficient fuel on the
empty-pool fixture returns a result. -/
theorem c9_ac3_terminates_witness :
    (ac3Loop mEmptyDom 1 (initDomains mEmptyDom) []).isSome = true :=
  (c9_ac3_terminates mEmptyDom).1 1 (initDomains mEmptyDom) []
    (fun p hp => absurd hp (List.not_mem_nil p)) (by decide)

/-- C10: `backtrack` leaves the Domain Store exactly unchanged for every
input assignment and fuel: threading the store through the recursion (as
the shared mutable `self.domains` is) returns it untouched, so no branch
ever observes a sibling's state; the helpers it calls are pure readers of
the store by construction. -/
theorem c10_backtrack_frame (c : Model) :
    ∀ (n : Nat) (dom : Domains) (asg : Assignment),
      (backtrackS c n dom asg).2 = dom :=
  backtrackS_frame c
